import Mathlib

/-!
Verification of the ImageManager directory-scanning subsystem
(`src/services/DirectoryService.ts`, full implementation in the repository,
plus the `sortedFiles` memo of `DirectoryBrowser.tsx`).

Shallow embedding notes:
* JavaScript strings are modelled as `List Char` (`Str`).  `toLowerCase` is
  modelled by `Char.toLower` applied pointwise, which matches the JS behavior
  on the ASCII range relevant to the extension filter.
* JavaScript `Date` timestamps (`getTime()`) are modelled as `Int`.
* `Array.prototype.sort` with a consistent comparator `cmp` is, per the
  ECMAScript specification, the unique stable sort w.r.t. the total preorder
  `cmp a b ≤ 0`; we use `List.insertionSort` with that relation as its
  denotation.
* Thrown platform errors are modelled by the `JsError` structure (the code
  only ever inspects `error.name`); fallible operations return values paired
  with `Option JsError`.
* The filesystem tree handed to the scanner is modelled by `FsEntry`; the
  environment's failure injection points are `materializeOk` (does
  `handle.getFile()` throw?) and `enumErr` (does enumerating this directory's
  entries throw, before yielding anything?).
-/

namespace ImageManager

/-- JavaScript strings, modelled as lists of characters. -/
abbrev Str := List Char

/-- Model of JS `String.prototype.toLowerCase` (pointwise ASCII lowering). -/
def strToLower (s : Str) : Str := s.map Char.toLower

/-- Model of JS `s.lastIndexOf(c)`: index of the last occurrence of `c`,
or `-1` when `c` does not occur. -/
def jsLastIndexOf : Str → Char → Int
  | [], _ => -1
  | a :: rest, c =>
    let r := jsLastIndexOf rest c
    if r ≥ 0 then r + 1
    else if a = c then 0 else -1

/-- Model of JS `s.substring(i)` for a possibly negative `i`
(negative start indices clamp to `0`). -/
def jsSubstringFrom (s : Str) (i : Int) : Str := s.drop i.toNat

/-- `DirectoryService._supportedExtensions`. -/
def supportedExtensions : List Str :=
  [".jpg".data, ".jpeg".data, ".png".data, ".gif".data, ".webp".data]

/-- `DirectoryService._isImageFile`:
`const extension = fileName.toLowerCase().substring(fileName.lastIndexOf('.'));
 return this._supportedExtensions.includes(extension);` -/
def isImageFile (fileName : Str) : Bool :=
  let extension := jsSubstringFrom (strToLower fileName) (jsLastIndexOf fileName '.')
  supportedExtensions.contains extension

/-- Spec-side predicate: the file name's extension (the suffix from the last
dot), matched case-insensitively, is one of the supported image extensions.
Expressed as: the lowercased name ends with one of the dotted extensions. -/
def hasSupportedExtension (fileName : Str) : Bool :=
  supportedExtensions.any (fun e => e.isSuffixOf (strToLower fileName))

/-- `SortOption` from `components/DirectoryBrowser/types.ts`. -/
inductive SortOption where
  | NAME
  | CREATED_DATE
deriving Repr, DecidableEq

/-- `SortOrder` from `components/DirectoryBrowser/types.ts`. -/
inductive SortOrder where
  | ASC
  | DESC
deriving Repr, DecidableEq

/-- `DirectoryBrowserErrorType` from `components/DirectoryBrowser/types.ts`. -/
inductive DirectoryBrowserErrorType where
  | DIRECTORY_ACCESS_DENIED
  | DIRECTORY_NOT_FOUND
  | FILE_SCAN_FAILED
  | PERMISSION_DENIED
  | BROWSER_NOT_SUPPORTED
deriving Repr, DecidableEq

/-- A thrown JS platform error; the service only ever inspects `name`. -/
structure JsError where
  name : Str
deriving Repr, DecidableEq

/-- `DirectoryServiceError` (the human-readable message strings are fixed
literals in the source and are not modelled). -/
structure DirectoryServiceError where
  type : DirectoryBrowserErrorType
  originalError : Option JsError
deriving Repr, DecidableEq

/-- `ImageFileInfo` from `components/DirectoryBrowser/types.ts`.  The opaque
`file : File` reference is not modelled; `thumbnailUrl` is always `undefined`
in the source and is omitted. -/
structure ImageFileInfo where
  name : Str
  size : Nat
  lastModified : Int
  createdDate : Int
  path : Str
deriving Repr, DecidableEq

/-- An opaque `FileSystemDirectoryHandle`: platform identity plus the
display name the code reads. -/
structure FileSystemDirectoryHandle where
  id : Nat
  name : Str
deriving Repr, DecidableEq

/-- A node of the user-granted directory tree as the platform presents it to
the scanner.  `materializeOk = false` models `handle.getFile()` throwing;
`enumErr = some e` models `directoryHandle.entries()` throwing `e` before
yielding any entry. -/
inductive FsEntry where
  | file (size : Nat) (lastModified : Int) (materializeOk : Bool)
  | dir (enumErr : Option JsError) (entries : List (Str × FsEntry))

/-- `currentPath = basePath ? basePath + '/' + name : name`. -/
def joinPath (basePath name : Str) : Str :=
  if basePath = [] then name else basePath ++ '/' :: name

/-- The record pushed for a materialized file (`createdDate` is set to the
modification time: the File API cannot distinguish the two). -/
def mkImageFileInfo (name : Str) (size : Nat) (lastModified : Int)
    (currentPath : Str) : ImageFileInfo :=
  { name := name, size := size, lastModified := lastModified,
    createdDate := lastModified, path := currentPath }

/-- The `try`/`catch` of `_scanDirectory`: a throw escaping the enumeration
loop is rethrown at the root (`basePath = ''`) and swallowed (logged) in a
subdirectory.  The first component is the shared `imageFiles` array as left
by the loop. -/
def dirCatch (basePath : Str) : List ImageFileInfo × Option JsError →
    List ImageFileInfo × Option JsError
  | (acc, none) => (acc, none)
  | (acc, some e) => if basePath = [] then (acc, some e) else (acc, none)

/-- The enumeration loop of `_scanDirectory`, over the yielded
`(name, handle)` pairs.  `acc` is the shared mutable `imageFiles` array; the
second component is the error escaping the loop, if any.  The nested
directory case inlines the callee's `try`/`catch` via `dirCatch`. -/
def scanEntries : List (Str × FsEntry) → Str → List ImageFileInfo →
    List ImageFileInfo × Option JsError
  | [], _, acc => (acc, none)
  | (name, .file size lastModified mok) :: rest, basePath, acc =>
    if isImageFile name then
      if mok then
        scanEntries rest basePath
          (acc ++ [mkImageFileInfo name size lastModified (joinPath basePath name)])
      else
        scanEntries rest basePath acc
    else
      scanEntries rest basePath acc
  | (name, .dir enumErr sub) :: rest, basePath, acc =>
    let currentPath := joinPath basePath name
    let child :=
      dirCatch currentPath
        (match enumErr with
          | some e => (acc, some e)
          | none => scanEntries sub currentPath acc)
    match child with
    | (acc₂, none) => scanEntries rest basePath acc₂
    | (acc₂, some e) => (acc₂, some e)

/-- `DirectoryService._scanDirectory` on a directory node given by its
`enumErr`/`entries` components. -/
def scanDirectory (enumErr : Option JsError) (entries : List (Str × FsEntry))
    (basePath : Str) (acc : List ImageFileInfo) :
    List ImageFileInfo × Option JsError :=
  dirCatch basePath
    (match enumErr with
      | some e => (acc, some e)
      | none => scanEntries entries basePath acc)

/-- The default sort of `getImageFiles`:
`imageFiles.sort((a, b) => b.createdDate.getTime() - a.createdDate.getTime())`,
i.e. the stable sort by the total preorder `b.createdDate ≤ a.createdDate`. -/
def sortByCreatedDateDesc (files : List ImageFileInfo) : List ImageFileInfo :=
  List.insertionSort (fun a b => b.createdDate ≤ a.createdDate) files

/-- `DirectoryService.getImageFiles` on the root directory handle (given by
its `enumErr`/`entries` components): scan recursively from `basePath = ''`,
sort by creation date descending, and wrap any escaping error in a
`FILE_SCAN_FAILED` service error. -/
def getImageFiles (enumErr : Option JsError) (entries : List (Str × FsEntry)) :
    Except DirectoryServiceError (List ImageFileInfo) :=
  match scanDirectory enumErr entries [] [] with
  | (files, none) => .ok (sortByCreatedDateDesc files)
  | (_, some e) =>
    .error { type := .FILE_SCAN_FAILED, originalError := some e }

/-- The mutable service state: `private _directoryHandle`. -/
structure DirectoryServiceState where
  directoryHandle : Option FileSystemDirectoryHandle
deriving Repr, DecidableEq

/-- The state of a freshly constructed `DirectoryService`. -/
def initialState : DirectoryServiceState := { directoryHandle := none }

/-- `DirectoryService.getCurrentDirectoryHandle`. -/
def getCurrentDirectoryHandle (st : DirectoryServiceState) :
    Option FileSystemDirectoryHandle :=
  st.directoryHandle

/-- Outcome of one `selectDirectory()` call as seen by the caller. -/
inductive SelectDirectoryResult where
  | ok (name : Str)
  | cancelled
  | err (e : DirectoryServiceError)
deriving Repr, DecidableEq

/-- `DirectoryService.selectDirectory`.  `supported` is the result of the
`isSupported()` capability probe; `picker` is the outcome of
`window.showDirectoryPicker()` (a handle, or a thrown `JsError`).  Returns
the caller-visible outcome and the updated service state. -/
def selectDirectory (supported : Bool)
    (picker : Except JsError FileSystemDirectoryHandle)
    (st : DirectoryServiceState) :
    SelectDirectoryResult × DirectoryServiceState :=
  if ¬ supported then
    (.err { type := .BROWSER_NOT_SUPPORTED, originalError := none }, st)
  else
    match picker with
    | .ok h => (.ok h.name, { st with directoryHandle := some h })
    | .error e =>
      if e.name = "AbortError".data then
        (.cancelled, st)
      else if e.name = "NotAllowedError".data then
        (.err { type := .PERMISSION_DENIED, originalError := some e }, st)
      else
        (.err { type := .DIRECTORY_ACCESS_DENIED, originalError := some e }, st)

/-- The comparator body of `sortedFiles` in `DirectoryBrowser.tsx` before the
direction is applied.  `lc` models `a.name.localeCompare(b.name, 'ja-JP')`
(locale collation is platform-defined, so it is a parameter).  The
`default: comparison = 0` branch of the source `switch` is unreachable. -/
def fileComparison (sortBy : SortOption) (lc : Str → Str → Int)
    (a b : ImageFileInfo) : Int :=
  match sortBy with
  | .NAME => lc a.name b.name
  | .CREATED_DATE => a.createdDate - b.createdDate

/-- The full comparator of `sortedFiles`:
`return sortOrder === SortOrder.ASC ? comparison : -comparison`. -/
def fileCompare (sortBy : SortOption) (sortOrder : SortOrder)
    (lc : Str → Str → Int) (a b : ImageFileInfo) : Int :=
  match sortOrder with
  | .ASC => fileComparison sortBy lc a b
  | .DESC => - fileComparison sortBy lc a b

/-- `sortedFiles` of `DirectoryBrowser.tsx`: empty in, empty out; otherwise
the stable sort of a copy of the array by the comparator. -/
def sortedFiles (files : List ImageFileInfo) (sortBy : SortOption)
    (sortOrder : SortOrder) (lc : Str → Str → Int) : List ImageFileInfo :=
  if files.length = 0 then []
  else List.insertionSort (fun a b => fileCompare sortBy sortOrder lc a b ≤ 0) files

/-- A conjunction of per-node checks over a directory tree: `pn` on every
entry name, `pf` on every file's `materializeOk` flag, `pd` on every
subdirectory's `enumErr`. -/
def entriesAll (pn : Str → Bool) (pf : Bool → Bool) (pd : Option JsError → Bool) :
    List (Str × FsEntry) → Bool
  | [] => true
  | (n, .file _ _ mok) :: rest => pn n && pf mok && entriesAll pn pf pd rest
  | (n, .dir err sub) :: rest =>
    pn n && pd err && entriesAll pn pf pd sub && entriesAll pn pf pd rest

/-- Every (sub)directory enumeration in the tree succeeds. -/
def AllEnumOk : List (Str × FsEntry) → Bool :=
  entriesAll (fun _ => true) (fun _ => true) Option.isNone

/-- Every file in the tree materializes successfully. -/
def AllMatOk : List (Str × FsEntry) → Bool :=
  entriesAll (fun _ => true) (fun b => b) (fun _ => true)

/-- Every entry name in the tree is non-empty. -/
def NamesNe : List (Str × FsEntry) → Bool :=
  entriesAll (fun n => !n.isEmpty) (fun _ => true) (fun _ => true)

/-- Every entry name in the tree is non-empty and free of the path
separator, as on a real filesystem. -/
def ValidNames : List (Str × FsEntry) → Bool :=
  entriesAll (fun n => !n.isEmpty && !n.contains '/') (fun _ => true) (fun _ => true)

/-- Spec-side count of the image files in a tree that materialize
successfully (the N of the partial-failure-tolerance property). -/
def goodImageCount : List (Str × FsEntry) → Nat
  | [] => 0
  | (n, .file _ _ mok) :: rest =>
    (if hasSupportedExtension n && mok then 1 else 0) + goodImageCount rest
  | (_, .dir _ sub) :: rest => goodImageCount sub + goodImageCount rest

/-- Spec-side description of where a file lives in a directory tree:
`FileIn entries dirs name size lm mok` holds when descending from `entries`
through the chain of subdirectory names `dirs` reaches a file entry
`(name, file size lm mok)`. -/
inductive FileIn :
    List (Str × FsEntry) → List Str → Str → Nat → Int → Bool → Prop where
  | here {entries : List (Str × FsEntry)} {name : Str} {size : Nat}
      {lm : Int} {mok : Bool}
      (h : (name, FsEntry.file size lm mok) ∈ entries) :
      FileIn entries [] name size lm mok
  | there {entries : List (Str × FsEntry)} {d : Str} {err : Option JsError}
      {sub : List (Str × FsEntry)} {dirs : List Str} {name : Str}
      {size : Nat} {lm : Int} {mok : Bool}
      (hd : (d, FsEntry.dir err sub) ∈ entries)
      (h : FileIn sub dirs name size lm mok) :
      FileIn entries (d :: dirs) name size lm mok

/-- `'/'`-joined path segments (empty on the empty list). -/
def joinSegs : List Str → Str
  | [] => []
  | [s] => s
  | s :: rest => s ++ '/' :: joinSegs rest

/-- Two directory trees with identical content whose entries may be
enumerated in different orders at every level: congruence under reordering
of sibling entries, recursively. -/
inductive TreePerm : List (Str × FsEntry) → List (Str × FsEntry) → Prop where
  | nil : TreePerm [] []
  | consFile {l₁ l₂ : List (Str × FsEntry)} {n : Str} {size : Nat}
      {lm : Int} {mok : Bool} (h : TreePerm l₁ l₂) :
      TreePerm ((n, .file size lm mok) :: l₁) ((n, .file size lm mok) :: l₂)
  | consDir {l₁ l₂ sub₁ sub₂ : List (Str × FsEntry)} {n : Str}
      {err : Option JsError} (hs : TreePerm sub₁ sub₂) (h : TreePerm l₁ l₂) :
      TreePerm ((n, .dir err sub₁) :: l₁) ((n, .dir err sub₂) :: l₂)
  | swap {l : List (Str × FsEntry)} (x y : Str × FsEntry) :
      TreePerm (x :: y :: l) (y :: x :: l)
  | trans {l₁ l₂ l₃ : List (Str × FsEntry)}
      (h₁ : TreePerm l₁ l₂) (h₂ : TreePerm l₂ l₃) : TreePerm l₁ l₃


theorem toLower_eq_dot_iff (c : Char) : Char.toLower c = '.' ↔ c = '.' := by
  constructor
  · intro h
    simp only [Char.toLower] at h
    by_cases hc : c.toNat ≥ 65 ∧ c.toNat ≤ 90
    · rw [if_pos hc] at h
      exfalso
      obtain ⟨h1, h2⟩ := hc
      set m := c.toNat with hmdef
      clear_value m
      interval_cases m <;> exact absurd h (by decide)
    · rwa [if_neg hc] at h
  · intro h; subst h; decide

theorem dot_mem_strToLower_iff (s : Str) : '.' ∈ strToLower s ↔ '.' ∈ s := by
  simp only [strToLower, List.mem_map]
  constructor
  · rintro ⟨c, hc, h⟩
    rwa [(toLower_eq_dot_iff c).mp h] at hc
  · intro h
    exact ⟨'.', h, by decide⟩

theorem jsLastIndexOf_of_not_mem : ∀ {s : Str} {c : Char}, c ∉ s → jsLastIndexOf s c = -1
  | [], _, _ => rfl
  | a :: rest, c, h => by
    have h1 : c ∉ rest := fun hm => h (List.mem_cons_of_mem _ hm)
    have h2 : ¬ (a = c) := fun he => h (he ▸ List.mem_cons_self a rest)
    simp [jsLastIndexOf, jsLastIndexOf_of_not_mem h1, h2]

theorem jsLastIndexOf_split : ∀ {s : Str} {c : Char}, c ∈ s →
    ∃ u v, s = u ++ c :: v ∧ c ∉ v ∧ jsLastIndexOf s c = u.length
  | [], _, h => absurd h (List.not_mem_nil _)
  | a :: rest, c, h => by
    by_cases hr : c ∈ rest
    · obtain ⟨u, v, hs, hv, hidx⟩ := jsLastIndexOf_split hr
      refine ⟨a :: u, v, by rw [hs]; rfl, hv, ?_⟩
      have hnn : (0 : Int) ≤ (u.length : Int) := Int.natCast_nonneg _
      simp [jsLastIndexOf, hidx, hnn]
    · have ha : a = c := by
        rcases List.mem_cons.mp h with h1 | h1
        · exact h1.symm
        · exact absurd h1 hr
      refine ⟨[], rest, by simp [ha], hr, ?_⟩
      simp [jsLastIndexOf, jsLastIndexOf_of_not_mem hr, ha]

theorem lastSplit_unique {c : Char} : ∀ {a₁ : Str} {b₁ a₂ b₂ : Str},
    a₁ ++ c :: b₁ = a₂ ++ c :: b₂ → c ∉ b₁ → c ∉ b₂ → a₁ = a₂ ∧ b₁ = b₂
  | [], b₁, a₂, b₂, h, h1, h2 => by
    cases a₂ with
    | nil => simpa using h
    | cons x t =>
      simp only [List.nil_append, List.cons_append, List.cons.injEq] at h
      obtain ⟨hx, hb⟩ := h
      exact absurd (hb ▸ List.mem_append_right t (List.mem_cons_self c b₂)) h1
  | x :: a₁, b₁, a₂, b₂, h, h1, h2 => by
    cases a₂ with
    | nil =>
      simp only [List.nil_append, List.cons_append, List.cons.injEq] at h
      obtain ⟨hx, hb⟩ := h
      exact absurd (hb.symm ▸ List.mem_append_right a₁ (List.mem_cons_self c b₁)) h2
    | cons y t =>
      simp only [List.cons_append, List.cons.injEq] at h
      obtain ⟨hxy, hrest⟩ := h
      obtain ⟨hat, hb⟩ := lastSplit_unique hrest h1 h2
      exact ⟨by rw [hxy, hat], hb⟩

theorem ext_shape {e : Str} (he : e ∈ supportedExtensions) :
    ∃ w, e = '.' :: w ∧ '.' ∉ w := by
  fin_cases he
  · exact ⟨"jpg".data, by decide, by decide⟩
  · exact ⟨"jpeg".data, by decide, by decide⟩
  · exact ⟨"png".data, by decide, by decide⟩
  · exact ⟨"gif".data, by decide, by decide⟩
  · exact ⟨"webp".data, by decide, by decide⟩

theorem dot_mem_of_mem_supportedExtensions {e : Str} (he : e ∈ supportedExtensions) :
    '.' ∈ e := by
  obtain ⟨w, hw, _⟩ := ext_shape he
  rw [hw]; exact List.mem_cons_self _ _

theorem isImageFile_eq_hasSupportedExtension (n : Str) :
    isImageFile n = hasSupportedExtension n := by
  rw [Bool.eq_iff_iff]
  by_cases hd : '.' ∈ n
  · obtain ⟨u, v, hs, hv, hidx⟩ := jsLastIndexOf_split hd
    have hlow : strToLower n = strToLower u ++ '.' :: strToLower v := by
      rw [hs]; simp [strToLower]
    have hdrop : jsSubstringFrom (strToLower n) (jsLastIndexOf n '.') = '.' :: strToLower v := by
      rw [hidx, jsSubstringFrom, Int.toNat_natCast, hlow]
      rw [show u.length = (strToLower u).length from (List.length_map _ _).symm]
      exact List.drop_left _ _
    have hvlow : '.' ∉ strToLower v := fun hm => hv ((dot_mem_strToLower_iff v).mp hm)
    constructor
    · intro hi
      unfold isImageFile at hi
      rw [hdrop] at hi
      have hmem : ('.' :: strToLower v) ∈ supportedExtensions := by simpa using hi
      unfold hasSupportedExtension
      rw [List.any_eq_true]
      refine ⟨_, hmem, ?_⟩
      rw [List.isSuffixOf_iff_suffix, hlow]
      exact ⟨strToLower u, rfl⟩
    · intro ha
      unfold hasSupportedExtension at ha
      rw [List.any_eq_true] at ha
      obtain ⟨e, he, hsuf⟩ := ha
      obtain ⟨w, hew, hw⟩ := ext_shape he
      rw [List.isSuffixOf_iff_suffix] at hsuf
      obtain ⟨p, hp⟩ := hsuf
      rw [hew] at hp
      have hun := lastSplit_unique (hp.trans hlow) hw hvlow
      unfold isImageFile
      rw [hdrop, ← hun.2, ← hew]
      simpa using he
  · have hidx : jsLastIndexOf n '.' = -1 := jsLastIndexOf_of_not_mem hd
    have hnd : '.' ∉ strToLower n := fun hm => hd ((dot_mem_strToLower_iff n).mp hm)
    constructor
    · intro hi
      unfold isImageFile at hi
      rw [hidx] at hi
      have : strToLower n ∈ supportedExtensions := by
        simpa [jsSubstringFrom] using hi
      exact absurd (dot_mem_of_mem_supportedExtensions this) hnd
    · intro ha
      unfold hasSupportedExtension at ha
      rw [List.any_eq_true] at ha
      obtain ⟨e, he, hsuf⟩ := ha
      rw [List.isSuffixOf_iff_suffix] at hsuf
      exact absurd (hsuf.mem (dot_mem_of_mem_supportedExtensions he)) hnd


theorem joinPath_nil_left (s : Str) : joinPath [] s = s := by simp [joinPath]

theorem joinPath_ne_nil {base d : Str} (h : d ≠ []) : joinPath base d ≠ [] := by
  unfold joinPath
  split
  · exact h
  · simp

theorem joinPath_comp {base d s : Str} (hd : d ≠ []) :
    joinPath (joinPath base d) s = joinPath base (d ++ '/' :: s) := by
  unfold joinPath
  by_cases hb : base = [] <;> simp [hb, hd]

theorem joinSegs_cons {s : Str} {l : List Str} (h : l ≠ []) :
    joinSegs (s :: l) = s ++ '/' :: joinSegs l := by
  cases l with
  | nil => exact absurd rfl h
  | cons a t => rfl

theorem scanEntries_nil (basePath : Str) (acc : List ImageFileInfo) :
    scanEntries [] basePath acc = (acc, none) := by
  simp [scanEntries]

theorem scanEntries_cons_file (name : Str) (sz : Nat) (lm : Int) (mok : Bool)
    (rest : List (Str × FsEntry)) (basePath : Str) (acc : List ImageFileInfo) :
    scanEntries ((name, .file sz lm mok) :: rest) basePath acc =
      if isImageFile name then
        if mok then
          scanEntries rest basePath
            (acc ++ [mkImageFileInfo name sz lm (joinPath basePath name)])
        else scanEntries rest basePath acc
      else scanEntries rest basePath acc := by
  simp [scanEntries]

theorem scanEntries_cons_dir (name : Str) (enumErr : Option JsError)
    (sub rest : List (Str × FsEntry)) (basePath : Str) (acc : List ImageFileInfo) :
    scanEntries ((name, .dir enumErr sub) :: rest) basePath acc =
      match dirCatch (joinPath basePath name)
        (match enumErr with
          | some e => (acc, some e)
          | none => scanEntries sub (joinPath basePath name) acc) with
      | (acc₂, none) => scanEntries rest basePath acc₂
      | (acc₂, some e) => (acc₂, some e) := by
  rw [scanEntries.eq_def]

theorem scanEntries_cons_file_pos {name : Str} {sz : Nat} {lm : Int}
    {rest : List (Str × FsEntry)} {basePath : Str} {acc : List ImageFileInfo}
    (h : isImageFile name = true) :
    scanEntries ((name, FsEntry.file sz lm true) :: rest) basePath acc =
      scanEntries rest basePath
        (acc ++ [mkImageFileInfo name sz lm (joinPath basePath name)]) := by
  rw [scanEntries_cons_file, if_pos h, if_pos rfl]

theorem scanEntries_cons_dir_none {name : Str} {sub rest : List (Str × FsEntry)}
    {basePath : Str} {acc S : List ImageFileInfo}
    (h : scanEntries sub (joinPath basePath name) acc = (S, none)) :
    scanEntries ((name, FsEntry.dir none sub) :: rest) basePath acc =
      scanEntries rest basePath S := by
  rw [scanEntries_cons_dir, h]
  rfl

theorem scanEntries_acc : ∀ (entries : List (Str × FsEntry)) (basePath : Str)
    (acc : List ImageFileInfo),
    scanEntries entries basePath acc =
      (acc ++ (scanEntries entries basePath []).1, (scanEntries entries basePath []).2)
  | [], basePath, acc => by simp [scanEntries]
  | (name, .file sz lm mok) :: rest, basePath, acc => by
    have ih := scanEntries_acc rest basePath
    rcases hSE : scanEntries rest basePath [] with ⟨S, E⟩
    have ihx : ∀ a, scanEntries rest basePath a = (a ++ S, E) := by
      intro a; rw [ih a, hSE]
    by_cases h1 : isImageFile name <;> cases mok <;>
      simp [scanEntries, h1, ihx]
  | (name, .dir enumErr sub) :: rest, basePath, acc => by
    have ihs := scanEntries_acc sub (joinPath basePath name)
    have ihr := scanEntries_acc rest basePath
    rcases hSS : scanEntries sub (joinPath basePath name) [] with ⟨Ss, Es⟩
    rcases hSR : scanEntries rest basePath [] with ⟨Sr, Er⟩
    have ihsx : ∀ a, scanEntries sub (joinPath basePath name) a = (a ++ Ss, Es) := by
      intro a; rw [ihs a, hSS]
    have ihrx : ∀ a, scanEntries rest basePath a = (a ++ Sr, Er) := by
      intro a; rw [ihr a, hSR]
    cases enumErr with
    | none =>
      by_cases hcp : joinPath basePath name = []
      · simp only [hcp] at ihsx
        cases Es with
        | none => simp [scanEntries, dirCatch, ihsx, ihrx, hcp]
        | some e => simp [scanEntries, dirCatch, ihsx, ihrx, hcp]
      · cases Es with
        | none => simp [scanEntries, dirCatch, ihsx, ihrx, hcp]
        | some e => simp [scanEntries, dirCatch, ihsx, ihrx, hcp]
    | some e =>
      by_cases hcp : joinPath basePath name = [] <;>
        simp [scanEntries, dirCatch, ihrx, hcp]

theorem mem_scanEntries_of_mem_acc {r : ImageFileInfo}
    {entries : List (Str × FsEntry)} {basePath : Str} {acc : List ImageFileInfo}
    (h : r ∈ acc) : r ∈ (scanEntries entries basePath acc).1 := by
  rw [scanEntries_acc]
  exact List.mem_append_left _ h

theorem entriesAll_append (pn : Str → Bool) (pf : Bool → Bool)
    (pd : Option JsError → Bool) : ∀ (l₁ l₂ : List (Str × FsEntry)),
    entriesAll pn pf pd (l₁ ++ l₂) =
      (entriesAll pn pf pd l₁ && entriesAll pn pf pd l₂)
  | [], l₂ => by simp [entriesAll]
  | (n, .file sz lm mok) :: rest, l₂ => by
    simp [entriesAll, entriesAll_append pn pf pd rest l₂, Bool.and_assoc]
  | (n, .dir err sub) :: rest, l₂ => by
    simp [entriesAll, entriesAll_append pn pf pd rest l₂, Bool.and_assoc]

theorem entriesAll_of_mem_file {pn : Str → Bool} {pf : Bool → Bool}
    {pd : Option JsError → Bool} : ∀ {l : List (Str × FsEntry)} {n : Str}
    {sz : Nat} {lm : Int} {mok : Bool},
    entriesAll pn pf pd l = true → (n, FsEntry.file sz lm mok) ∈ l →
    pn n = true ∧ pf mok = true
  | [], _, _, _, _, _, hm => absurd hm (List.not_mem_nil _)
  | x :: rest, n, sz, lm, mok, h, hm => by
    rcases List.mem_cons.mp hm with he | ht
    · subst he
      simp only [entriesAll, Bool.and_eq_true] at h
      exact ⟨h.1.1, h.1.2⟩
    · rcases x with ⟨m, e⟩
      cases e <;> simp only [entriesAll, Bool.and_eq_true] at h
      · exact entriesAll_of_mem_file h.2 ht
      · exact entriesAll_of_mem_file h.2 ht

theorem entriesAll_of_mem_dir {pn : Str → Bool} {pf : Bool → Bool}
    {pd : Option JsError → Bool} : ∀ {l : List (Str × FsEntry)} {d : Str}
    {err : Option JsError} {sub : List (Str × FsEntry)},
    entriesAll pn pf pd l = true → (d, FsEntry.dir err sub) ∈ l →
    pn d = true ∧ pd err = true ∧ entriesAll pn pf pd sub = true
  | [], _, _, _, _, hm => absurd hm (List.not_mem_nil _)
  | x :: rest, d, err, sub, h, hm => by
    rcases List.mem_cons.mp hm with he | ht
    · subst he
      simp only [entriesAll, Bool.and_eq_true] at h
      exact ⟨h.1.1.1, h.1.1.2, h.1.2⟩
    · rcases x with ⟨m, e⟩
      cases e <;> simp only [entriesAll, Bool.and_eq_true] at h
      · exact entriesAll_of_mem_dir h.2 ht
      · exact entriesAll_of_mem_dir h.2 ht

theorem entriesAll_cons_file {pn : Str → Bool} {pf : Bool → Bool}
    {pd : Option JsError → Bool} {n : Str} {sz : Nat} {lm : Int} {mok : Bool}
    {rest : List (Str × FsEntry)}
    (h : entriesAll pn pf pd ((n, FsEntry.file sz lm mok) :: rest) = true) :
    pn n = true ∧ pf mok = true ∧ entriesAll pn pf pd rest = true := by
  simp only [entriesAll, Bool.and_eq_true] at h
  exact ⟨h.1.1, h.1.2, h.2⟩

theorem entriesAll_cons_dir {pn : Str → Bool} {pf : Bool → Bool}
    {pd : Option JsError → Bool} {n : Str} {err : Option JsError}
    {sub rest : List (Str × FsEntry)}
    (h : entriesAll pn pf pd ((n, FsEntry.dir err sub) :: rest) = true) :
    pn n = true ∧ pd err = true ∧ entriesAll pn pf pd sub = true ∧
      entriesAll pn pf pd rest = true := by
  simp only [entriesAll, Bool.and_eq_true] at h
  exact ⟨h.1.1.1, h.1.1.2, h.1.2, h.2⟩

theorem scanEntries_err_none : ∀ (entries : List (Str × FsEntry))
    (basePath : Str) (acc : List ImageFileInfo),
    AllEnumOk entries = true → (scanEntries entries basePath acc).2 = none
  | [], _, _, _ => by simp [scanEntries]
  | (name, .file sz lm mok) :: rest, basePath, acc, h => by
    have hr := (entriesAll_cons_file h).2.2
    have ih := scanEntries_err_none rest basePath
    by_cases h1 : isImageFile name <;> cases mok <;>
      simp [scanEntries, h1, ih _ hr]
  | (name, .dir enumErr sub) :: rest, basePath, acc, h => by
    obtain ⟨-, hen, hsub, hrest⟩ := entriesAll_cons_dir h
    have henum : enumErr = none := by
      cases enumErr
      · rfl
      · simp at hen
    subst henum
    rcases hS : scanEntries sub (joinPath basePath name) acc with ⟨Ss, Es⟩
    have hEs : Es = none := by
      have := scanEntries_err_none sub (joinPath basePath name) acc hsub
      rw [hS] at this
      exact this
    subst hEs
    simp [scanEntries, dirCatch, hS, scanEntries_err_none rest basePath Ss hrest]

theorem scanEntries_append : ∀ (l₁ : List (Str × FsEntry))
    (l₂ : List (Str × FsEntry)) (basePath : Str) (acc : List ImageFileInfo),
    (scanEntries l₁ basePath acc).2 = none →
    scanEntries (l₁ ++ l₂) basePath acc =
      scanEntries l₂ basePath (scanEntries l₁ basePath acc).1
  | [], l₂, basePath, acc, _ => by simp [scanEntries]
  | (name, .file sz lm mok) :: rest, l₂, basePath, acc, h => by
    have ih := scanEntries_append rest l₂ basePath
    by_cases h1 : isImageFile name <;> cases mok <;>
      simp only [scanEntries, h1, if_true, if_false, ite_true, ite_false,
        Bool.false_eq_true, List.cons_append] at h ⊢ <;>
      exact ih _ h
  | (name, .dir enumErr sub) :: rest, l₂, basePath, acc, h => by
    have ih := scanEntries_append rest l₂ basePath
    simp only [List.cons_append, scanEntries_cons_dir] at h ⊢
    cases enumErr with
    | some e =>
      by_cases hcp : joinPath basePath name = []
      · simp [dirCatch, hcp] at h
      · simp only [dirCatch, if_neg hcp] at h ⊢
        exact ih _ h
    | none =>
      rcases hS : scanEntries sub (joinPath basePath name) acc with ⟨Ss, Es⟩
      rw [hS] at h
      cases Es with
      | none =>
        simp only [dirCatch] at h ⊢
        exact ih _ h
      | some e =>
        by_cases hcp : joinPath basePath name = []
        · simp [dirCatch, hcp] at h
        · simp only [dirCatch, if_neg hcp] at h ⊢
          exact ih _ h

theorem FileIn_cons {x : Str × FsEntry} {l : List (Str × FsEntry)}
    {dirs : List Str} {name : Str} {sz : Nat} {lm : Int} {mok : Bool}
    (h : FileIn l dirs name sz lm mok) : FileIn (x :: l) dirs name sz lm mok := by
  cases h with
  | here h => exact .here (List.mem_cons_of_mem _ h)
  | there hd h => exact .there (List.mem_cons_of_mem _ hd) h

theorem NamesNe_name_ne_nil {l : List (Str × FsEntry)} {n : Str} {e : FsEntry}
    (h : NamesNe l = true) (hm : (n, e) ∈ l) : n ≠ [] := by
  cases e with
  | file sz lm mok =>
    have := (entriesAll_of_mem_file h hm).1
    simpa [List.isEmpty_iff] using this
  | dir err sub =>
    have := (entriesAll_of_mem_dir h hm).1
    simpa [List.isEmpty_iff] using this

theorem scanEntries_sound : ∀ (entries : List (Str × FsEntry)) (basePath : Str)
    (acc : List ImageFileInfo), NamesNe entries = true →
    ∀ r ∈ (scanEntries entries basePath acc).1, r ∈ acc ∨
      ∃ dirs, FileIn entries dirs r.name r.size r.lastModified true ∧
        isImageFile r.name = true ∧ r.createdDate = r.lastModified ∧
        r.path = joinPath basePath (joinSegs (dirs ++ [r.name]))
  | [], basePath, acc, _, r, hr => by
    rw [scanEntries_nil] at hr
    exact Or.inl hr
  | (name, .file sz lm mok) :: rest, basePath, acc, hne, r, hr => by
    obtain ⟨hn, -, hrest⟩ := entriesAll_cons_file hne
    rw [scanEntries_cons_file] at hr
    have step : ∀ acc₀, r ∈ (scanEntries rest basePath acc₀).1 → r ∈ acc₀ ∨
        ∃ dirs, FileIn ((name, FsEntry.file sz lm mok) :: rest) dirs r.name r.size
          r.lastModified true ∧ isImageFile r.name = true ∧
          r.createdDate = r.lastModified ∧
          r.path = joinPath basePath (joinSegs (dirs ++ [r.name])) := by
      intro acc₀ h₀
      rcases scanEntries_sound rest basePath acc₀ hrest r h₀ with h | ⟨dirs, hfi, hrest'⟩
      · exact Or.inl h
      · exact Or.inr ⟨dirs, FileIn_cons hfi, hrest'⟩
    by_cases h1 : isImageFile name
    · cases mok with
      | false =>
        simp only [h1, if_true] at hr
        exact step acc hr
      | true =>
        simp only [h1, if_true] at hr
        rcases step _ hr with h | h
        · rcases List.mem_append.mp h with h | h
          · exact Or.inl h
          · rcases List.mem_singleton.mp h with rfl
            refine Or.inr ⟨[], ?_, h1, rfl, ?_⟩
            · exact .here (List.mem_cons_self _ _)
            · simp [mkImageFileInfo, joinSegs]
        · exact Or.inr h
    · simp only [h1, if_false] at hr
      exact step acc hr
  | (name, .dir enumErr sub) :: rest, basePath, acc, hne, r, hr => by
    obtain ⟨hn, -, hsub, hrest⟩ := entriesAll_cons_dir hne
    have hnn : name ≠ [] := by simpa [List.isEmpty_iff] using hn
    rw [scanEntries_cons_dir] at hr
    have hsubsound : ∀ r₀ ∈ (scanEntries sub (joinPath basePath name) acc).1,
        r₀ ∈ acc ∨
        ∃ dirs, FileIn ((name, FsEntry.dir enumErr sub) :: rest) dirs r₀.name r₀.size
          r₀.lastModified true ∧ isImageFile r₀.name = true ∧
          r₀.createdDate = r₀.lastModified ∧
          r₀.path = joinPath basePath (joinSegs (dirs ++ [r₀.name])) := by
      intro r₀ h₀
      rcases scanEntries_sound sub (joinPath basePath name) acc hsub r₀ h₀ with
        h | ⟨dirs, hfi, himg, hcd, hpath⟩
      · exact Or.inl h
      · refine Or.inr ⟨name :: dirs, .there (List.mem_cons_self _ _) hfi, himg, hcd, ?_⟩
        rw [hpath, List.cons_append, joinSegs_cons (by simp), ← joinPath_comp hnn]
    have step : ∀ acc₀, (∀ r₀ ∈ acc₀, r₀ ∈ acc ∨
          ∃ dirs, FileIn ((name, FsEntry.dir enumErr sub) :: rest) dirs r₀.name r₀.size
            r₀.lastModified true ∧ isImageFile r₀.name = true ∧
            r₀.createdDate = r₀.lastModified ∧
            r₀.path = joinPath basePath (joinSegs (dirs ++ [r₀.name]))) →
        r ∈ (scanEntries rest basePath acc₀).1 → r ∈ acc ∨
        ∃ dirs, FileIn ((name, FsEntry.dir enumErr sub) :: rest) dirs r.name r.size
          r.lastModified true ∧ isImageFile r.name = true ∧
          r.createdDate = r.lastModified ∧
          r.path = joinPath basePath (joinSegs (dirs ++ [r.name])) := by
      intro acc₀ hacc₀ h₀
      rcases scanEntries_sound rest basePath acc₀ hrest r h₀ with h | ⟨dirs, hfi, hrest'⟩
      · exact hacc₀ r h
      · exact Or.inr ⟨dirs, FileIn_cons hfi, hrest'⟩
    cases enumErr with
    | some e =>
      by_cases hcp : joinPath basePath name = []
      · simp only [dirCatch, if_pos hcp] at hr
        exact Or.inl hr
      · simp only [dirCatch, if_neg hcp] at hr
        exact step acc (fun r₀ h₀ => Or.inl h₀) hr
    | none =>
      rcases hS : scanEntries sub (joinPath basePath name) acc with ⟨Ss, Es⟩
      rw [hS] at hr
      have hSs : ∀ r₀ ∈ Ss, r₀ ∈ acc ∨
          ∃ dirs, FileIn ((name, FsEntry.dir none sub) :: rest) dirs r₀.name r₀.size
            r₀.lastModified true ∧ isImageFile r₀.name = true ∧
            r₀.createdDate = r₀.lastModified ∧
            r₀.path = joinPath basePath (joinSegs (dirs ++ [r₀.name])) := by
        intro r₀ h₀
        have hmem : r₀ ∈ (scanEntries sub (joinPath basePath name) acc).1 := by
          rw [hS]
          exact h₀
        exact hsubsound r₀ hmem
      cases Es with
      | none =>
        simp only [dirCatch] at hr
        exact step Ss hSs hr
      | some e =>
        by_cases hcp : joinPath basePath name = []
        · simp only [dirCatch, if_pos hcp] at hr
          exact hSs r hr
        · simp only [dirCatch, if_neg hcp] at hr
          exact step Ss hSs hr

theorem scanEntries_complete {entries : List (Str × FsEntry)} {dirs : List Str}
    {name : Str} {sz : Nat} {lm : Int} {mok : Bool}
    (hfi : FileIn entries dirs name sz lm mok) :
    ∀ (basePath : Str) (acc : List ImageFileInfo), mok = true →
    AllEnumOk entries = true → NamesNe entries = true →
    isImageFile name = true →
    mkImageFileInfo name sz lm (joinPath basePath (joinSegs (dirs ++ [name]))) ∈
      (scanEntries entries basePath acc).1 := by
  induction hfi with
  | here h =>
    intro basePath acc hmok hall hne himg
    subst hmok
    obtain ⟨pre, post, rfl⟩ := List.append_of_mem h
    have hpre : AllEnumOk pre = true := by
      rw [AllEnumOk, entriesAll_append, Bool.and_eq_true] at hall
      exact hall.1
    rw [scanEntries_append pre _ basePath acc (scanEntries_err_none pre basePath acc hpre)]
    rw [scanEntries_cons_file, if_pos himg, if_pos rfl]
    refine mem_scanEntries_of_mem_acc (List.mem_append_right _ ?_)
    simp [joinSegs]
  | there hd hsub ih =>
    rename_i entries d err sub dirs' fname fsz flm fmok
    intro basePath acc hmok hall hne himg
    subst hmok
    obtain ⟨pre, post, rfl⟩ := List.append_of_mem hd
    have hpre : AllEnumOk pre = true := by
      rw [AllEnumOk, entriesAll_append, Bool.and_eq_true] at hall
      exact hall.1
    have hx := @entriesAll_of_mem_dir (fun _ => true) (fun _ => true)
      Option.isNone _ _ _ _ hall hd
    have herr : err = none := by
      cases err
      · rfl
      · simp at hx
    have hsuball : AllEnumOk sub = true := hx.2.2
    have hnx := @entriesAll_of_mem_dir (fun n => !n.isEmpty) (fun _ => true)
      (fun _ => true) _ _ _ _ hne hd
    have hdnn : d ≠ [] := by simpa [List.isEmpty_iff] using hnx.1
    have hsubne : NamesNe sub = true := hnx.2.2
    subst herr
    rw [scanEntries_append pre _ basePath acc (scanEntries_err_none pre basePath acc hpre)]
    rw [scanEntries_cons_dir]
    rcases hS : scanEntries sub (joinPath basePath d)
        ((scanEntries pre basePath acc).1) with ⟨Ss, Es⟩
    have hEs : Es = none := by
      have := scanEntries_err_none sub (joinPath basePath d)
        ((scanEntries pre basePath acc).1) hsuball
      rw [hS] at this
      exact this
    subst hEs
    simp only [dirCatch]
    have hrec := ih (joinPath basePath d) ((scanEntries pre basePath acc).1)
      rfl hsuball hsubne himg
    rw [hS] at hrec
    have hpath : joinPath (joinPath basePath d) (joinSegs (dirs' ++ [fname])) =
        joinPath basePath (joinSegs ((d :: dirs') ++ [fname])) := by
      rw [List.cons_append, joinSegs_cons (by simp), joinPath_comp hdnn]
    rw [hpath] at hrec
    exact mem_scanEntries_of_mem_acc hrec

theorem scanEntries_skip_bad_dir {d : Str} {e : JsError}
    {sub : List (Str × FsEntry)} (hd : d ≠ []) :
    ∀ (pre : List (Str × FsEntry)) (post : List (Str × FsEntry))
    (basePath : Str) (acc : List ImageFileInfo),
    scanEntries (pre ++ (d, FsEntry.dir (some e) sub) :: post) basePath acc =
      scanEntries (pre ++ post) basePath acc
  | [], post, basePath, acc => by
    rw [List.nil_append, List.nil_append, scanEntries_cons_dir]
    simp only [dirCatch, if_neg (joinPath_ne_nil hd)]
  | (n, .file fsz flm fmok) :: pre, post, basePath, acc => by
    rw [List.cons_append, List.cons_append, scanEntries_cons_file,
      scanEntries_cons_file]
    by_cases h1 : isImageFile n <;> cases fmok <;>
      simp only [h1, if_true, if_false, ite_true, ite_false, Bool.false_eq_true,
        scanEntries_skip_bad_dir hd pre post basePath]
  | (n, .dir nerr nsub) :: pre, post, basePath, acc => by
    rw [List.cons_append, List.cons_append, scanEntries_cons_dir,
      scanEntries_cons_dir]
    rcases hC : dirCatch (joinPath basePath n)
        (match nerr with
          | some e₀ => (acc, some e₀)
          | none => scanEntries nsub (joinPath basePath n) acc) with ⟨a₂, e₂⟩
    cases e₂ with
    | none => exact scanEntries_skip_bad_dir hd pre post basePath a₂
    | some e₀ => rfl

theorem FileIn_mok_of_AllMatOk {entries : List (Str × FsEntry)} {dirs : List Str}
    {name : Str} {sz : Nat} {lm : Int} {mok : Bool}
    (h : FileIn entries dirs name sz lm mok) (hm : AllMatOk entries = true) :
    mok = true := by
  induction h with
  | here h => exact (entriesAll_of_mem_file hm h).2
  | there hd h ih => exact ih (entriesAll_of_mem_dir hm hd).2.2

theorem FileIn_valid_names {entries : List (Str × FsEntry)} {dirs : List Str}
    {name : Str} {sz : Nat} {lm : Int} {mok : Bool}
    (h : FileIn entries dirs name sz lm mok) (hv : ValidNames entries = true) :
    (∀ s ∈ dirs ++ [name], s ≠ [] ∧ '/' ∉ s) := by
  induction h with
  | here h =>
    intro s hs
    rcases List.mem_cons.mp hs with rfl | hs
    · have := (entriesAll_of_mem_file hv h).1
      simp only [Bool.and_eq_true] at this
      constructor
      · simpa [List.isEmpty_iff] using this.1
      · intro hmem
        have hc := this.2
        simp only [Bool.not_eq_true'] at hc
        simp at hc
        exact hc hmem
    · exact absurd hs (List.not_mem_nil s)
  | there hd hsub ih =>
    intro s hs
    have hx := entriesAll_of_mem_dir hv hd
    rcases List.mem_cons.mp hs with rfl | hs
    · have := hx.1
      simp only [Bool.and_eq_true] at this
      constructor
      · simpa [List.isEmpty_iff] using this.1
      · intro hmem
        have hc := this.2
        simp only [Bool.not_eq_true'] at hc
        simp at hc
        exact hc hmem
    · exact ih hx.2.2 s hs

theorem firstSplit_unique {c : Char} : ∀ {a₁ b₁ a₂ b₂ : Str},
    a₁ ++ c :: b₁ = a₂ ++ c :: b₂ → c ∉ a₁ → c ∉ a₂ → a₁ = a₂ ∧ b₁ = b₂
  | [], b₁, a₂, b₂, h, h1, h2 => by
    cases a₂ with
    | nil => simpa using h
    | cons x t =>
      simp only [List.nil_append, List.cons_append, List.cons.injEq] at h
      exact absurd (h.1 ▸ List.mem_cons_self x t) h2
  | x :: a₁, b₁, a₂, b₂, h, h1, h2 => by
    cases a₂ with
    | nil =>
      simp only [List.nil_append, List.cons_append, List.cons.injEq] at h
      refine absurd ?_ h1
      rw [h.1]
      exact List.mem_cons_self _ _
    | cons y t =>
      simp only [List.cons_append, List.cons.injEq] at h
      have h1' : c ∉ a₁ := fun hm => h1 (List.mem_cons_of_mem _ hm)
      have h2' : c ∉ t := fun hm => h2 (List.mem_cons_of_mem _ hm)
      obtain ⟨hat, hb⟩ := firstSplit_unique h.2 h1' h2'
      exact ⟨by rw [h.1, hat], hb⟩

theorem slash_mem_joinSegs_cons {s : Str} {l : List Str} (h : l ≠ []) :
    '/' ∈ joinSegs (s :: l) := by
  rw [joinSegs_cons h]
  exact List.mem_append_right _ (List.mem_cons_self _ _)

theorem joinSegs_inj : ∀ {l₁ l₂ : List Str}, l₁ ≠ [] → l₂ ≠ [] →
    (∀ s ∈ l₁, s ≠ [] ∧ '/' ∉ s) → (∀ s ∈ l₂, s ≠ [] ∧ '/' ∉ s) →
    joinSegs l₁ = joinSegs l₂ → l₁ = l₂
  | [], _, h₁, _, _, _, _ => absurd rfl h₁
  | _ :: _, [], _, h₂, _, _, _ => absurd rfl h₂
  | [x], [y], _, _, _, _, h => by
    simpa [joinSegs] using h
  | [x], y :: z :: t, _, _, hv₁, hv₂, h => by
    exfalso
    have hslash : '/' ∈ joinSegs (y :: z :: t) := slash_mem_joinSegs_cons (by simp)
    rw [← h] at hslash
    exact (hv₁ x (List.mem_singleton_self x)).2 (by simpa [joinSegs] using hslash)
  | x :: z :: t, [y], _, _, hv₁, hv₂, h => by
    exfalso
    have hslash : '/' ∈ joinSegs (x :: z :: t) := slash_mem_joinSegs_cons (by simp)
    rw [h] at hslash
    exact (hv₂ y (List.mem_singleton_self y)).2 (by simpa [joinSegs] using hslash)
  | x :: z₁ :: t₁, y :: z₂ :: t₂, _, _, hv₁, hv₂, h => by
    rw [@joinSegs_cons x (z₁ :: t₁) (by simp),
      @joinSegs_cons y (z₂ :: t₂) (by simp)] at h
    obtain ⟨hxy, hrest⟩ := firstSplit_unique h
      (hv₁ x (List.mem_cons_self _ _)).2 (hv₂ y (List.mem_cons_self _ _)).2
    have ht := @joinSegs_inj (z₁ :: t₁) (z₂ :: t₂) (by simp) (by simp)
      (fun s hs => hv₁ s (List.mem_cons_of_mem _ hs))
      (fun s hs => hv₂ s (List.mem_cons_of_mem _ hs)) hrest
    rw [hxy, ht]

theorem filter_orderedInsert_pos {α : Type} {r : α → α → Prop} [DecidableRel r]
    {p : α → Bool} {a : α} (hpa : p a = true)
    (hrel : ∀ b, p b = true → r a b) :
    ∀ l : List α, (List.orderedInsert r a l).filter p = a :: l.filter p
  | [] => by simp [hpa]
  | b :: l => by
    by_cases hr : r a b
    · simp [List.orderedInsert, hr, hpa]
    · have hpb : p b = false := by
        rcases hb : p b with _ | _
        · rfl
        · exact absurd (hrel b hb) hr
      simp [List.orderedInsert, hr, hpb, filter_orderedInsert_pos hpa hrel l]

theorem filter_orderedInsert_neg {α : Type} {r : α → α → Prop} [DecidableRel r]
    {p : α → Bool} {a : α} (hpa : p a = false) :
    ∀ l : List α, (List.orderedInsert r a l).filter p = l.filter p
  | [] => by simp [hpa]
  | b :: l => by
    by_cases hr : r a b <;>
      simp [List.orderedInsert, hr, hpa, List.filter_cons,
        filter_orderedInsert_neg hpa l]

theorem filter_insertionSort {α : Type} {r : α → α → Prop} [DecidableRel r]
    {p : α → Bool} (hrel : ∀ a b, p a = true → p b = true → r a b) :
    ∀ l : List α, (List.insertionSort r l).filter p = l.filter p
  | [] => rfl
  | a :: l => by
    rcases hpa : p a with _ | _
    · rw [List.insertionSort, filter_orderedInsert_neg hpa,
        filter_insertionSort hrel l]
      simp [hpa]
    · rw [List.insertionSort, filter_orderedInsert_pos hpa
        (fun b hb => hrel a b hpa hb), filter_insertionSort hrel l]
      simp [hpa]

theorem FileIn_cons_iff {nm : Str} {e : FsEntry} {l : List (Str × FsEntry)}
    {dirs : List Str} {name : Str} {sz : Nat} {lm : Int} {mok : Bool} :
    FileIn ((nm, e) :: l) dirs name sz lm mok ↔
      (dirs = [] ∧ nm = name ∧ e = FsEntry.file sz lm mok) ∨
      (∃ err sub dirs₀, e = FsEntry.dir err sub ∧ dirs = nm :: dirs₀ ∧
        FileIn sub dirs₀ name sz lm mok) ∨
      FileIn l dirs name sz lm mok := by
  constructor
  · intro h
    cases h with
    | here h =>
      rcases List.mem_cons.mp h with he | ht
      · simp only [Prod.mk.injEq] at he
        exact Or.inl ⟨rfl, he.1.symm, he.2.symm⟩
      · exact Or.inr (Or.inr (.here ht))
    | there hd hsub =>
      rcases List.mem_cons.mp hd with he | ht
      · simp only [Prod.mk.injEq] at he
        refine Or.inr (Or.inl ⟨_, _, _, he.2.symm, ?_, hsub⟩)
        rw [he.1]
      · exact Or.inr (Or.inr (.there ht hsub))
  · intro h
    rcases h with ⟨rfl, rfl, rfl⟩ | ⟨err, sub, dirs₀, rfl, rfl, hfi⟩ | h
    · exact .here (List.mem_cons_self _ _)
    · exact .there (List.mem_cons_self _ _) hfi
    · cases h with
      | here h => exact .here (List.mem_cons_of_mem _ h)
      | there hd hsub => exact .there (List.mem_cons_of_mem _ hd) hsub

theorem TreePerm_FileIn {l₁ l₂ : List (Str × FsEntry)} (hp : TreePerm l₁ l₂) :
    ∀ {dirs : List Str} {name : Str} {sz : Nat} {lm : Int} {mok : Bool},
    FileIn l₁ dirs name sz lm mok → FileIn l₂ dirs name sz lm mok := by
  induction hp with
  | nil =>
    intro _ _ _ _ _ h
    exact h
  | consFile hp ih =>
    intro dirs name sz lm mok h
    rw [FileIn_cons_iff] at h ⊢
    rcases h with h | ⟨err, sub, dirs₀, he, _⟩ | h
    · exact Or.inl h
    · exact absurd he (by simp)
    · exact Or.inr (Or.inr (ih h))
  | consDir hs hp ihs ih =>
    intro dirs name sz lm mok h
    rw [FileIn_cons_iff] at h ⊢
    rcases h with ⟨_, _, he⟩ | ⟨err, sub, dirs₀, he, hdirs, hfi⟩ | h
    · exact absurd he (by simp)
    · rw [FsEntry.dir.injEq] at he
      rw [← he.2] at hfi
      exact Or.inr (Or.inl ⟨_, _, dirs₀, rfl, hdirs, ihs hfi⟩)
    · exact Or.inr (Or.inr (ih h))
  | swap x y =>
    intro dirs name sz lm mok h
    rcases x with ⟨nx, ex⟩
    rcases y with ⟨ny, ey⟩
    rw [FileIn_cons_iff] at h ⊢
    rw [FileIn_cons_iff] at h
    rw [FileIn_cons_iff]
    rcases h with h | h | h | h | h
    · exact Or.inr (Or.inr (Or.inl h))
    · exact Or.inr (Or.inr (Or.inr (Or.inl h)))
    · exact Or.inl h
    · exact Or.inr (Or.inl h)
    · exact Or.inr (Or.inr (Or.inr (Or.inr h)))
  | trans h₁ h₂ ih₁ ih₂ =>
    intro dirs name sz lm mok h
    exact ih₂ (ih₁ h)

theorem scanEntries_length : ∀ (entries : List (Str × FsEntry)) (basePath : Str)
    (acc : List ImageFileInfo), AllEnumOk entries = true →
    ((scanEntries entries basePath acc).1).length =
      acc.length + goodImageCount entries
  | [], _, acc, _ => by simp [scanEntries_nil, goodImageCount]
  | (name, .file sz lm mok) :: rest, basePath, acc, h => by
    obtain ⟨-, -, hrest⟩ := entriesAll_cons_file h
    rw [scanEntries_cons_file]
    have hext := isImageFile_eq_hasSupportedExtension name
    by_cases h1 : isImageFile name <;> cases mok <;>
      (have h2 := h1
       rw [hext] at h2
       simp [h1, h2, goodImageCount,
         scanEntries_length rest basePath _ hrest]
       try omega)
  | (name, .dir enumErr sub) :: rest, basePath, acc, h => by
    obtain ⟨-, hen, hsub, hrest⟩ := entriesAll_cons_dir h
    have henum : enumErr = none := by
      cases enumErr
      · rfl
      · simp at hen
    subst henum
    rw [scanEntries_cons_dir]
    rcases hS : scanEntries sub (joinPath basePath name) acc with ⟨Ss, Es⟩
    have hEs : Es = none := by
      have := scanEntries_err_none sub (joinPath basePath name) acc hsub
      rw [hS] at this
      exact this
    subst hEs
    simp only [dirCatch]
    have h1 := scanEntries_length sub (joinPath basePath name) acc hsub
    rw [hS] at h1
    have h2 := scanEntries_length rest basePath Ss hrest
    simp only [goodImageCount, h2, h1]
    omega

theorem insertionSort_idempotent {α : Type} {r : α → α → Prop} [DecidableRel r]
    (htot : ∀ a b, r a b ∨ r b a) (htrans : ∀ a b c, r a b → r b c → r a c)
    (l : List α) :
    List.insertionSort r (List.insertionSort r l) = List.insertionSort r l := by
  haveI : IsTotal α r := ⟨htot⟩
  haveI : IsTrans α r := ⟨fun a b c => htrans a b c⟩
  exact (List.sorted_insertionSort r l).insertionSort_eq

theorem dirCatch_fst (basePath : Str) (x : List ImageFileInfo × Option JsError) :
    (dirCatch basePath x).1 = x.1 := by
  rcases x with ⟨acc, e⟩
  cases e with
  | none => rfl
  | some e =>
    simp only [dirCatch]
    by_cases h : basePath = [] <;> simp [h]

theorem entriesAll_mono {pn₁ pn₂ : Str → Bool} {pf₁ pf₂ : Bool → Bool}
    {pd₁ pd₂ : Option JsError → Bool}
    (hn : ∀ n, pn₁ n = true → pn₂ n = true)
    (hf : ∀ b, pf₁ b = true → pf₂ b = true)
    (hd : ∀ o, pd₁ o = true → pd₂ o = true) :
    ∀ l : List (Str × FsEntry),
    entriesAll pn₁ pf₁ pd₁ l = true → entriesAll pn₂ pf₂ pd₂ l = true
  | [], _ => by simp [entriesAll]
  | (n, .file sz lm mok) :: rest, h => by
    obtain ⟨h1, h2, h3⟩ := entriesAll_cons_file h
    simp [entriesAll, hn n h1, hf _ h2, entriesAll_mono hn hf hd rest h3]
  | (n, .dir err sub) :: rest, h => by
    obtain ⟨h1, h2, h3, h4⟩ := entriesAll_cons_dir h
    simp [entriesAll, hn n h1, hd _ h2, entriesAll_mono hn hf hd sub h3,
      entriesAll_mono hn hf hd rest h4]

theorem NamesNe_of_ValidNames {l : List (Str × FsEntry)}
    (h : ValidNames l = true) : NamesNe l = true := by
  refine entriesAll_mono ?_ (fun b hb => hb) (fun o ho => ho) l h
  intro n hn
  rw [Bool.and_eq_true] at hn
  exact hn.1

theorem scanEntries_isImage : ∀ (entries : List (Str × FsEntry))
    (basePath : Str) (acc : List ImageFileInfo),
    ∀ r ∈ (scanEntries entries basePath acc).1,
    r ∈ acc ∨ isImageFile r.name = true
  | [], _, acc, r, hr => by
    rw [scanEntries_nil] at hr
    exact Or.inl hr
  | (name, .file sz lm mok) :: rest, basePath, acc, r, hr => by
    rw [scanEntries_cons_file] at hr
    by_cases h1 : isImageFile name
    · cases mok with
      | false =>
        simp only [h1, if_pos, if_true] at hr
        exact scanEntries_isImage rest basePath acc r hr
      | true =>
        simp only [h1, if_pos, if_true] at hr
        rcases scanEntries_isImage rest basePath _ r hr with h | h
        · rcases List.mem_append.mp h with h | h
          · exact Or.inl h
          · rcases List.mem_singleton.mp h with rfl
            exact Or.inr h1
        · exact Or.inr h
    · simp only [h1, if_false] at hr
      exact scanEntries_isImage rest basePath acc r hr
  | (name, .dir enumErr sub) :: rest, basePath, acc, r, hr => by
    rw [scanEntries_cons_dir] at hr
    have hsub : ∀ r₀ ∈ (scanEntries sub (joinPath basePath name) acc).1,
        r₀ ∈ acc ∨ isImageFile r₀.name = true :=
      fun r₀ h₀ => scanEntries_isImage sub (joinPath basePath name) acc r₀ h₀
    cases enumErr with
    | some e =>
      by_cases hcp : joinPath basePath name = []
      · simp only [dirCatch, if_pos hcp] at hr
        exact Or.inl hr
      · simp only [dirCatch, if_neg hcp] at hr
        exact scanEntries_isImage rest basePath acc r hr
    | none =>
      rcases hS : scanEntries sub (joinPath basePath name) acc with ⟨Ss, Es⟩
      rw [hS] at hr
      have hSs : ∀ r₀ ∈ Ss, r₀ ∈ acc ∨ isImageFile r₀.name = true := by
        intro r₀ h₀
        refine hsub r₀ ?_
        rw [hS]
        exact h₀
      cases Es with
      | none =>
        simp only [dirCatch] at hr
        rcases scanEntries_isImage rest basePath Ss r hr with h | h
        · exact hSs r h
        · exact Or.inr h
      | some e =>
        by_cases hcp : joinPath basePath name = []
        · simp only [dirCatch, if_pos hcp] at hr
          exact hSs r hr
        · simp only [dirCatch, if_neg hcp] at hr
          rcases scanEntries_isImage rest basePath Ss r hr with h | h
          · exact hSs r h
          · exact Or.inr h

theorem hasSupportedExtension_dot {n : Str}
    (h : hasSupportedExtension n = true) : '.' ∈ n := by
  rw [hasSupportedExtension, List.any_eq_true] at h
  obtain ⟨e, he, hsuf⟩ := h
  rw [List.isSuffixOf_iff_suffix] at hsuf
  exact (dot_mem_strToLower_iff n).mp (hsuf.mem (dot_mem_of_mem_supportedExtensions he))

theorem TreePerm_symm {l₁ l₂ : List (Str × FsEntry)} (h : TreePerm l₁ l₂) :
    TreePerm l₂ l₁ := by
  induction h with
  | nil => exact .nil
  | consFile h ih => exact .consFile ih
  | consDir hs h ihs ih => exact .consDir ihs ih
  | swap x y => exact .swap y x
  | trans h₁ h₂ ih₁ ih₂ => exact .trans ih₂ ih₁

theorem getImageFiles_paths_char {entries : List (Str × FsEntry)}
    {out : List ImageFileInfo}
    (hne : NamesNe entries = true) (hok : AllEnumOk entries = true)
    (hout : getImageFiles none entries = .ok out) (p : Str) :
    (∃ r ∈ out, r.path = p) ↔
      ∃ dirs name sz lm, FileIn entries dirs name sz lm true ∧
        isImageFile name = true ∧ p = joinSegs (dirs ++ [name]) := by
  rcases hs : scanDirectory none entries [] [] with ⟨D, E⟩
  rw [getImageFiles, hs] at hout
  have hD : D = (scanEntries entries [] []).1 := by
    have hfst := dirCatch_fst [] (scanEntries entries [] [])
    rw [scanDirectory] at hs
    rw [hs] at hfst
    exact hfst
  cases E with
  | some e => simp at hout
  | none =>
    have hout' : out = sortByCreatedDateDesc D := by
      simpa using hout.symm
    subst hout'
    constructor
    · rintro ⟨r, hr, rfl⟩
      rw [sortByCreatedDateDesc, List.mem_insertionSort, hD] at hr
      rcases scanEntries_sound entries [] [] hne r hr with h | ⟨dirs, hfi, himg, -, hpath⟩
      · exact absurd h (List.not_mem_nil r)
      · exact ⟨dirs, r.name, r.size, r.lastModified, hfi, himg, by
          rw [hpath, joinPath_nil_left]⟩
    · rintro ⟨dirs, name, sz, lm, hfi, himg, rfl⟩
      refine ⟨mkImageFileInfo name sz lm (joinPath [] (joinSegs (dirs ++ [name]))), ?_, ?_⟩
      · rw [sortByCreatedDateDesc, List.mem_insertionSort, hD]
        exact scanEntries_complete hfi [] [] rfl hok hne himg
      · simp [mkImageFileInfo, joinPath_nil_left]

/-- C1: for every completed scan, `getImageFiles` returns the discovered
records sorted by `modifiedAt` (`createdDate`) descending: every adjacent
pair `(a, b)` of the output satisfies `a.createdDate ≥ b.createdDate`, and
for every timestamp the records carrying it appear in the output in exactly
the relative order in which the scanner discovered them (stable sort). -/
theorem C1_default_order_stable (enumErr : Option JsError)
    (entries : List (Str × FsEntry)) (out : List ImageFileInfo)
    (hout : getImageFiles enumErr entries = .ok out) :
    (∀ (i : Nat) (hi : i + 1 < out.length),
      (out.get ⟨i + 1, hi⟩).createdDate ≤
        (out.get ⟨i, Nat.lt_of_succ_lt hi⟩).createdDate) ∧
    (∀ t : Int,
      out.filter (fun r => r.createdDate = t) =
        ((scanDirectory enumErr entries [] []).1).filter
          (fun r => r.createdDate = t)) := by
  rcases hs : scanDirectory enumErr entries [] [] with ⟨D, E⟩
  rw [getImageFiles, hs] at hout
  cases E with
  | some e => simp at hout
  | none =>
    have hout' : out = sortByCreatedDateDesc D := by simpa using hout.symm
    subst hout'
    constructor
    · intro i hi
      haveI : IsTotal ImageFileInfo (fun a b => b.createdDate ≤ a.createdDate) :=
        ⟨fun a b => Int.le_total b.createdDate a.createdDate⟩
      haveI : IsTrans ImageFileInfo (fun a b => b.createdDate ≤ a.createdDate) :=
        ⟨fun a b c hab hbc => le_trans hbc hab⟩
      have hsorted := List.sorted_insertionSort
        (fun a b : ImageFileInfo => b.createdDate ≤ a.createdDate) D
      exact hsorted.rel_get_of_lt (show (⟨i, _⟩ : Fin _) < ⟨i + 1, hi⟩ from
        Nat.lt_succ_self i)
    · intro t
      rw [sortByCreatedDateDesc]
      exact filter_insertionSort
        (fun a b ha hb => by
          simp only [decide_eq_true_eq] at ha hb
          exact le_of_eq (hb.trans ha.symm)) D

/-- C3: for a directory tree whose enumerations all succeed, containing N
image files that materialize successfully and M image files whose
materialization throws, `getImageFiles` succeeds and returns exactly the N
successfully materialized image records; per-file failures are skipped and
never surface as an error. -/
theorem C3_partial_failure_tolerance (entries : List (Str × FsEntry))
    (hok : AllEnumOk entries = true) :
    ∃ out, getImageFiles none entries = .ok out ∧
      out.length = goodImageCount entries := by
  rcases hs : scanEntries entries [] [] with ⟨D, E⟩
  have hE : E = none := by
    have := scanEntries_err_none entries [] [] hok
    rw [hs] at this
    exact this
  subst hE
  refine ⟨sortByCreatedDateDesc D, ?_, ?_⟩
  · rw [getImageFiles, scanDirectory, hs]
    rfl
  · rw [sortByCreatedDateDesc, List.length_insertionSort]
    have := scanEntries_length entries [] [] hok
    rw [hs] at this
    simpa using this

/-- C4: a throw while enumerating the root directory makes `getImageFiles`
fail with a `FILE_SCAN_FAILED` service error wrapping the original error;
a throw while enumerating a non-root subdirectory is swallowed: the whole
scan behaves exactly as if that subdirectory entry were absent, siblings
included, and no error escapes. -/
theorem C4_root_fatal_subdir_skipped :
    (∀ (e : JsError) (entries : List (Str × FsEntry)),
      getImageFiles (some e) entries =
        .error { type := .FILE_SCAN_FAILED, originalError := some e }) ∧
    (∀ (pre post sub : List (Str × FsEntry)) (d : Str) (e : JsError),
      d ≠ [] →
      getImageFiles none (pre ++ (d, FsEntry.dir (some e) sub) :: post) =
        getImageFiles none (pre ++ post)) := by
  constructor
  · intro e entries
    rw [getImageFiles, scanDirectory]
    rfl
  · intro pre post sub d e hd
    rw [getImageFiles, getImageFiles, scanDirectory, scanDirectory,
      scanEntries_skip_bad_dir hd pre post [] []]

/-- C5: `selectDirectory` classifies every outcome: absent capability fails
with `BROWSER_NOT_SUPPORTED`; a thrown `AbortError` (user cancellation)
resolves to null rather than throwing; a thrown `NotAllowedError` fails with
`PERMISSION_DENIED` wrapping the original error; any other throw fails with
`DIRECTORY_ACCESS_DENIED` wrapping the original error; success resolves to
the chosen directory's display name. -/
theorem C5_selectDirectory_classification :
    (∀ (picker : Except JsError FileSystemDirectoryHandle)
      (st : DirectoryServiceState),
      selectDirectory false picker st =
        (.err { type := .BROWSER_NOT_SUPPORTED, originalError := none }, st)) ∧
    (∀ (e : JsError) (st : DirectoryServiceState),
      e.name = "AbortError".data →
      selectDirectory true (.error e) st = (.cancelled, st)) ∧
    (∀ (e : JsError) (st : DirectoryServiceState),
      e.name = "NotAllowedError".data →
      selectDirectory true (.error e) st =
        (.err { type := .PERMISSION_DENIED, originalError := some e }, st)) ∧
    (∀ (e : JsError) (st : DirectoryServiceState),
      e.name ≠ "AbortError".data → e.name ≠ "NotAllowedError".data →
      selectDirectory true (.error e) st =
        (.err { type := .DIRECTORY_ACCESS_DENIED, originalError := some e },
          st)) ∧
    (∀ (h : FileSystemDirectoryHandle) (st : DirectoryServiceState),
      selectDirectory true (.ok h) st =
        (.ok h.name, { st with directoryHandle := some h })) := by
  refine ⟨?_, ?_, ?_, ?_, ?_⟩
  · intro picker st
    simp [selectDirectory]
  · intro e st he
    simp [selectDirectory, he]
  · intro e st he
    have hne : e.name ≠ "AbortError".data := by
      rw [he]
      decide
    simp [selectDirectory, he, hne]
  · intro e st h1 h2
    simp [selectDirectory, h1, h2]
  · intro h st
    simp [selectDirectory]

/-- C10: `getCurrentDirectoryHandle` returns the stored handle slot, which
is `none` in the initial state, is overwritten with the granted handle by
every successful `selectDirectory`, and is left unchanged by a
`selectDirectory` call that is cancelled or throws (any picker failure, or
an absent capability). -/
theorem C10_current_handle_frame :
    getCurrentDirectoryHandle initialState = none ∧
    (∀ (st : DirectoryServiceState) (h : FileSystemDirectoryHandle),
      getCurrentDirectoryHandle (selectDirectory true (.ok h) st).2 = some h) ∧
    (∀ (st : DirectoryServiceState) (supported : Bool) (e : JsError),
      getCurrentDirectoryHandle (selectDirectory supported (.error e) st).2 =
        getCurrentDirectoryHandle st) ∧
    (∀ (st : DirectoryServiceState)
      (picker : Except JsError FileSystemDirectoryHandle),
      getCurrentDirectoryHandle (selectDirectory false picker st).2 =
        getCurrentDirectoryHandle st) := by
  refine ⟨rfl, ?_, ?_, ?_⟩
  · intro st h
    simp [selectDirectory, getCurrentDirectoryHandle]
  · intro st supported e
    cases supported with
    | false => simp [selectDirectory]
    | true =>
      by_cases h1 : e.name = "AbortError".data
      · simp [selectDirectory, h1]
      · by_cases h2 : e.name = "NotAllowedError".data <;>
          simp [selectDirectory, h1, h2]
  · intro st picker
    simp [selectDirectory]

/-- C2: in a tree with valid names where every enumeration succeeds and
every file materializes, a file reachable at the subdirectory chain `dirs`
with leaf name `name` appears in the listing (as a record at relative path
`dirs ++ [name]` joined with '/') if and only if its name's extension is
one of .jpg, .jpeg, .png, .gif, .webp, matched case-insensitively. -/
theorem C2_filter_correctness (entries : List (Str × FsEntry))
    (out : List ImageFileInfo) (dirs : List Str) (name : Str) (sz : Nat)
    (lm : Int) (mok : Bool)
    (hv : ValidNames entries = true) (hok : AllEnumOk entries = true)
    (hmat : AllMatOk entries = true)
    (hout : getImageFiles none entries = .ok out)
    (hfi : FileIn entries dirs name sz lm mok) :
    (∃ r ∈ out, r.path = joinSegs (dirs ++ [name])) ↔
      hasSupportedExtension name = true := by
  have hne : NamesNe entries = true := NamesNe_of_ValidNames hv
  rw [getImageFiles_paths_char hne hok hout]
  constructor
  · rintro ⟨dirs', name', sz', lm', hfi', himg', hjoin⟩
    have hval := FileIn_valid_names hfi hv
    have hval' := FileIn_valid_names hfi' hv
    have heq : dirs' ++ [name'] = dirs ++ [name] :=
      joinSegs_inj (by simp) (by simp) hval' hval hjoin.symm
    have hname : name' = name := by
      have hlast := (List.append_inj' heq rfl).2
      simpa using hlast
    rw [← hname, ← isImageFile_eq_hasSupportedExtension]
    exact himg'
  · intro hext
    have hmok : mok = true := FileIn_mok_of_AllMatOk hfi hmat
    rw [hmok] at hfi
    exact ⟨dirs, name, sz, lm, hfi,
      (isImageFile_eq_hasSupportedExtension name).trans hext, rfl⟩

/-- C6: every record a scan discovers has as its relative path the
'/'-joined chain of subdirectory names from the scan root followed by the
file's leaf name; in particular a file directly inside subdirectory `a`
has path `a/<leaf>` and a root-level file's path is its own name. -/
theorem C6_relative_path_construction (enumErr : Option JsError)
    (entries : List (Str × FsEntry)) (out : List ImageFileInfo)
    (hne : NamesNe entries = true)
    (hout : getImageFiles enumErr entries = .ok out) :
    ∀ r ∈ out, ∃ dirs, FileIn entries dirs r.name r.size r.lastModified true ∧
      r.path = joinSegs (dirs ++ [r.name]) := by
  cases enumErr with
  | some e =>
    rw [getImageFiles, scanDirectory] at hout
    simp [dirCatch] at hout
  | none =>
    rcases hs : scanEntries entries [] [] with ⟨D, E⟩
    rw [getImageFiles, scanDirectory, hs] at hout
    cases E with
    | some e => simp [dirCatch] at hout
    | none =>
      simp only [dirCatch] at hout
      have hout' : out = sortByCreatedDateDesc D := by simpa using hout.symm
      subst hout'
      intro r hr
      rw [sortByCreatedDateDesc, List.mem_insertionSort] at hr
      have hr' : r ∈ (scanEntries entries [] []).1 := by
        rw [hs]
        exact hr
      rcases scanEntries_sound entries [] [] hne r hr' with
        h | ⟨dirs, hfi, -, -, hpath⟩
      · exact absurd h (List.not_mem_nil r)
      · exact ⟨dirs, hfi, by rw [hpath, joinPath_nil_left]⟩

/-- C7: for every listing and every SortSpec (key in NAME, CREATED_DATE;
direction in ASC, DESC), with a consistent locale comparator, applying the
sort to its own output yields the identical order (sorting is idempotent
for a fixed key and direction). -/
theorem C7_sort_idempotent (files : List ImageFileInfo) (sortBy : SortOption)
    (sortOrder : SortOrder) (lc : Str → Str → Int)
    (hanti : ∀ a b, lc a b ≤ 0 ↔ 0 ≤ lc b a)
    (htrans : ∀ a b c, lc a b ≤ 0 → lc b c ≤ 0 → lc a c ≤ 0) :
    sortedFiles (sortedFiles files sortBy sortOrder lc) sortBy sortOrder lc =
      sortedFiles files sortBy sortOrder lc := by
  have htot : ∀ a b : ImageFileInfo,
      fileCompare sortBy sortOrder lc a b ≤ 0 ∨
      fileCompare sortBy sortOrder lc b a ≤ 0 := by
    intro a b
    cases sortBy <;> cases sortOrder <;>
      simp only [fileCompare, fileComparison]
    · rcases le_or_lt (lc a.name b.name) 0 with h | h
      · exact Or.inl h
      · exact Or.inr ((hanti b.name a.name).mpr (le_of_lt h))
    · rcases le_or_lt 0 (lc a.name b.name) with h | h
      · exact Or.inl (by omega)
      · have := (hanti a.name b.name).mp (le_of_lt h)
        exact Or.inr (by omega)
    · omega
    · omega
  have htr : ∀ a b c : ImageFileInfo,
      fileCompare sortBy sortOrder lc a b ≤ 0 →
      fileCompare sortBy sortOrder lc b c ≤ 0 →
      fileCompare sortBy sortOrder lc a c ≤ 0 := by
    intro a b c
    cases sortBy <;> cases sortOrder <;>
      simp only [fileCompare, fileComparison]
    · exact htrans a.name b.name c.name
    · intro h1 h2
      have h1' : lc b.name a.name ≤ 0 := by
        rw [hanti]
        omega
      have h2' : lc c.name b.name ≤ 0 := by
        rw [hanti]
        omega
      have := htrans c.name b.name a.name h2' h1'
      rw [hanti] at this
      omega
    · omega
    · omega
  rw [sortedFiles, sortedFiles]
  by_cases h0 : files.length = 0
  · simp [h0, sortedFiles]
  · rw [if_neg h0]
    have hlen : (List.insertionSort
        (fun a b => fileCompare sortBy sortOrder lc a b ≤ 0) files).length =
        files.length := List.length_insertionSort _ files
    rw [if_neg (by rw [hlen]; exact h0)]
    exact insertionSort_idempotent htot htr files

/-- C8: scanning is deterministic with respect to directory content: two
trees with the same files and timestamps whose entries are enumerated in
different orders at any level (under successful enumeration and non-empty
names) yield listings with the same set of relativePath values. -/
theorem C8_rescan_same_path_set (e₁ e₂ : List (Str × FsEntry))
    (out₁ out₂ : List ImageFileInfo) (hp : TreePerm e₁ e₂)
    (hne₁ : NamesNe e₁ = true) (hne₂ : NamesNe e₂ = true)
    (hok₁ : AllEnumOk e₁ = true) (hok₂ : AllEnumOk e₂ = true)
    (h₁ : getImageFiles none e₁ = .ok out₁)
    (h₂ : getImageFiles none e₂ = .ok out₂) :
    ∀ p : Str, (∃ r ∈ out₁, r.path = p) ↔ (∃ r ∈ out₂, r.path = p) := by
  intro p
  rw [getImageFiles_paths_char hne₁ hok₁ h₁ p,
    getImageFiles_paths_char hne₂ hok₂ h₂ p]
  constructor
  · rintro ⟨dirs, name, sz, lm, hfi, himg, rfl⟩
    exact ⟨dirs, name, sz, lm, TreePerm_FileIn hp hfi, himg, rfl⟩
  · rintro ⟨dirs, name, sz, lm, hfi, himg, rfl⟩
    exact ⟨dirs, name, sz, lm, TreePerm_FileIn (TreePerm_symm hp) hfi, himg, rfl⟩

/-- C9: a file name containing no '.' never passes the scanner's extension
test (the code then compares the whole lowercased name against dot-prefixed
extensions, which cannot match), so such files never appear in any listing;
conversely the name ".jpg" (empty base name) passes the test and a root
file named ".jpg" is listed. -/
theorem C9_dotless_excluded_dotfile_included :
    (∀ n : Str, '.' ∉ n → isImageFile n = false) ∧
    (∀ (enumErr : Option JsError) (entries : List (Str × FsEntry))
      (out : List ImageFileInfo), getImageFiles enumErr entries = .ok out →
      ∀ r ∈ out, '.' ∈ r.name) ∧
    isImageFile ".jpg".data = true ∧
    getImageFiles none [(".jpg".data, FsEntry.file 1 0 true)] =
      .ok [mkImageFileInfo ".jpg".data 1 0 ".jpg".data] := by
  refine ⟨?_, ?_, by decide, ?_⟩
  · intro n hn
    rcases h : isImageFile n with _ | _
    · rfl
    · rw [isImageFile_eq_hasSupportedExtension] at h
      exact absurd (hasSupportedExtension_dot h) hn
  · intro enumErr entries out hout r hr
    cases enumErr with
    | some e =>
      rw [getImageFiles, scanDirectory] at hout
      simp [dirCatch] at hout
    | none =>
      rcases hs : scanEntries entries [] [] with ⟨D, E⟩
      rw [getImageFiles, scanDirectory, hs] at hout
      cases E with
      | some e => simp [dirCatch] at hout
      | none =>
        simp only [dirCatch] at hout
        have hout' : out = sortByCreatedDateDesc D := by simpa using hout.symm
        subst hout'
        rw [sortByCreatedDateDesc, List.mem_insertionSort] at hr
        have hr' : r ∈ (scanEntries entries [] []).1 := by
          rw [hs]
          exact hr
        rcases scanEntries_isImage entries [] [] r hr' with h | h
        · exact absurd h (List.not_mem_nil r)
        · rw [isImageFile_eq_hasSupportedExtension] at h
          exact hasSupportedExtension_dot h
  · rw [getImageFiles, scanDirectory,
      scanEntries_cons_file_pos (show isImageFile (".jpg".data) = true
        by decide),
      scanEntries_nil]
    rfl

theorem C1_default_order_stable_witness :
    (getImageFiles none [("b.jpg".data, FsEntry.file 1 5 true),
        ("a.jpg".data, FsEntry.file 2 9 true)] =
      .ok [mkImageFileInfo "a.jpg".data 2 9 "a.jpg".data,
        mkImageFileInfo "b.jpg".data 1 5 "b.jpg".data]) ∧
    ((∀ (i : Nat) (hi : i + 1 <
        [mkImageFileInfo "a.jpg".data 2 9 "a.jpg".data,
          mkImageFileInfo "b.jpg".data 1 5 "b.jpg".data].length),
      ([mkImageFileInfo "a.jpg".data 2 9 "a.jpg".data,
          mkImageFileInfo "b.jpg".data 1 5 "b.jpg".data].get
            ⟨i + 1, hi⟩).createdDate ≤
        ([mkImageFileInfo "a.jpg".data 2 9 "a.jpg".data,
          mkImageFileInfo "b.jpg".data 1 5 "b.jpg".data].get
            ⟨i, Nat.lt_of_succ_lt hi⟩).createdDate) ∧
    (∀ t : Int,
      [mkImageFileInfo "a.jpg".data 2 9 "a.jpg".data,
        mkImageFileInfo "b.jpg".data 1 5 "b.jpg".data].filter
          (fun r => r.createdDate = t) =
        ((scanDirectory none [("b.jpg".data, FsEntry.file 1 5 true),
          ("a.jpg".data, FsEntry.file 2 9 true)] [] []).1).filter
          (fun r => r.createdDate = t))) :=
  have h : getImageFiles none [("b.jpg".data, FsEntry.file 1 5 true),
      ("a.jpg".data, FsEntry.file 2 9 true)] =
      .ok [mkImageFileInfo "a.jpg".data 2 9 "a.jpg".data,
        mkImageFileInfo "b.jpg".data 1 5 "b.jpg".data] := by
    rw [getImageFiles, scanDirectory,
      scanEntries_cons_file_pos (show isImageFile ("b.jpg".data) = true
        by decide),
      scanEntries_cons_file_pos (show isImageFile ("a.jpg".data) = true
        by decide),
      scanEntries_nil]
    rfl
  ⟨h, C1_default_order_stable none _ _ h⟩

theorem C3_partial_failure_tolerance_witness :
    (AllEnumOk [("ok.jpg".data, FsEntry.file 1 1 true),
      ("fail.jpg".data, FsEntry.file 2 2 false)] = true) ∧
    ∃ out, getImageFiles none [("ok.jpg".data, FsEntry.file 1 1 true),
        ("fail.jpg".data, FsEntry.file 2 2 false)] = .ok out ∧
      out.length = goodImageCount [("ok.jpg".data, FsEntry.file 1 1 true),
        ("fail.jpg".data, FsEntry.file 2 2 false)] :=
  have h : AllEnumOk [("ok.jpg".data, FsEntry.file 1 1 true),
      ("fail.jpg".data, FsEntry.file 2 2 false)] = true := by
    simp [AllEnumOk, entriesAll]
  ⟨h, C3_partial_failure_tolerance _ h⟩

theorem C4_root_fatal_subdir_skipped_witness :
    ("bad".data ≠ ([] : Str)) ∧
    getImageFiles none ([("good.jpg".data, FsEntry.file 1 1 true)] ++
        ("bad".data, FsEntry.dir (some ⟨"X".data⟩)
          [("in.jpg".data, FsEntry.file 2 2 true)]) ::
        [("also.png".data, FsEntry.file 3 3 true)]) =
      getImageFiles none ([("good.jpg".data, FsEntry.file 1 1 true)] ++
        [("also.png".data, FsEntry.file 3 3 true)]) :=
  ⟨by decide,
    C4_root_fatal_subdir_skipped.2 [("good.jpg".data, FsEntry.file 1 1 true)]
      [("also.png".data, FsEntry.file 3 3 true)]
      [("in.jpg".data, FsEntry.file 2 2 true)] "bad".data ⟨"X".data⟩
      (by decide)⟩

theorem C5_selectDirectory_classification_witness :
    ((⟨"AbortError".data⟩ : JsError).name = "AbortError".data ∧
      selectDirectory true (.error ⟨"AbortError".data⟩) initialState =
        (.cancelled, initialState)) ∧
    ((⟨"NotAllowedError".data⟩ : JsError).name = "NotAllowedError".data ∧
      selectDirectory true (.error ⟨"NotAllowedError".data⟩) initialState =
        (.err { type := .PERMISSION_DENIED,
                originalError := some ⟨"NotAllowedError".data⟩ },
          initialState)) ∧
    ((⟨"Boom".data⟩ : JsError).name ≠ "AbortError".data ∧
      (⟨"Boom".data⟩ : JsError).name ≠ "NotAllowedError".data ∧
      selectDirectory true (.error ⟨"Boom".data⟩) initialState =
        (.err { type := .DIRECTORY_ACCESS_DENIED,
                originalError := some ⟨"Boom".data⟩ },
          initialState)) :=
  ⟨⟨rfl, C5_selectDirectory_classification.2.1 ⟨"AbortError".data⟩
      initialState rfl⟩,
    ⟨rfl, C5_selectDirectory_classification.2.2.1 ⟨"NotAllowedError".data⟩
      initialState rfl⟩,
    by decide, by decide,
    C5_selectDirectory_classification.2.2.2.1 ⟨"Boom".data⟩ initialState
      (by decide) (by decide)⟩

theorem C2_filter_correctness_witness :
    (ValidNames [("a".data, FsEntry.dir none
      [("b.jpg".data, FsEntry.file 5 7 true)])] = true) ∧
    (AllEnumOk [("a".data, FsEntry.dir none
      [("b.jpg".data, FsEntry.file 5 7 true)])] = true) ∧
    (AllMatOk [("a".data, FsEntry.dir none
      [("b.jpg".data, FsEntry.file 5 7 true)])] = true) ∧
    (getImageFiles none [("a".data, FsEntry.dir none
      [("b.jpg".data, FsEntry.file 5 7 true)])] =
      .ok [mkImageFileInfo "b.jpg".data 5 7 "a/b.jpg".data]) ∧
    FileIn [("a".data, FsEntry.dir none
      [("b.jpg".data, FsEntry.file 5 7 true)])]
      ["a".data] "b.jpg".data 5 7 true ∧
    ((∃ r ∈ [mkImageFileInfo "b.jpg".data 5 7 "a/b.jpg".data],
        r.path = joinSegs (["a".data] ++ ["b.jpg".data])) ↔
      hasSupportedExtension "b.jpg".data = true) :=
  have hv : ValidNames [("a".data, FsEntry.dir none
      [("b.jpg".data, FsEntry.file 5 7 true)])] = true := by
    simp only [ValidNames, entriesAll]
    decide
  have hok : AllEnumOk [("a".data, FsEntry.dir none
      [("b.jpg".data, FsEntry.file 5 7 true)])] = true := by
    simp only [AllEnumOk, entriesAll]
    decide
  have hmat : AllMatOk [("a".data, FsEntry.dir none
      [("b.jpg".data, FsEntry.file 5 7 true)])] = true := by
    simp only [AllMatOk, entriesAll]
    decide
  have hsub : scanEntries [("b.jpg".data, FsEntry.file 5 7 true)]
      (joinPath [] "a".data) [] =
      ([mkImageFileInfo "b.jpg".data 5 7 "a/b.jpg".data], none) := by
    rw [scanEntries_cons_file_pos (show isImageFile ("b.jpg".data) = true
      by decide), scanEntries_nil]
    rfl
  have hout : getImageFiles none [("a".data, FsEntry.dir none
      [("b.jpg".data, FsEntry.file 5 7 true)])] =
      .ok [mkImageFileInfo "b.jpg".data 5 7 "a/b.jpg".data] := by
    rw [getImageFiles, scanDirectory, scanEntries_cons_dir_none hsub,
      scanEntries_nil]
    rfl
  have hfi : FileIn [("a".data, FsEntry.dir none
      [("b.jpg".data, FsEntry.file 5 7 true)])]
      ["a".data] "b.jpg".data 5 7 true :=
    .there (List.mem_cons_self _ _) (.here (List.mem_cons_self _ _))
  ⟨hv, hok, hmat, hout, hfi,
    C2_filter_correctness _ _ _ _ _ _ true hv hok hmat hout hfi⟩

theorem C6_relative_path_construction_witness :
    (NamesNe [("a".data, FsEntry.dir none
        [("b.jpg".data, FsEntry.file 5 7 true)]),
      ("photo.jpg".data, FsEntry.file 6 8 true)] = true) ∧
    (getImageFiles none [("a".data, FsEntry.dir none
        [("b.jpg".data, FsEntry.file 5 7 true)]),
      ("photo.jpg".data, FsEntry.file 6 8 true)] =
      .ok [mkImageFileInfo "photo.jpg".data 6 8 "photo.jpg".data,
        mkImageFileInfo "b.jpg".data 5 7 "a/b.jpg".data]) ∧
    ∀ r ∈ [mkImageFileInfo "photo.jpg".data 6 8 "photo.jpg".data,
        mkImageFileInfo "b.jpg".data 5 7 "a/b.jpg".data],
      ∃ dirs, FileIn [("a".data, FsEntry.dir none
          [("b.jpg".data, FsEntry.file 5 7 true)]),
        ("photo.jpg".data, FsEntry.file 6 8 true)]
        dirs r.name r.size r.lastModified true ∧
        r.path = joinSegs (dirs ++ [r.name]) :=
  have hne : NamesNe [("a".data, FsEntry.dir none
      [("b.jpg".data, FsEntry.file 5 7 true)]),
      ("photo.jpg".data, FsEntry.file 6 8 true)] = true := by
    simp only [NamesNe, entriesAll]
    decide
  have hsub : scanEntries [("b.jpg".data, FsEntry.file 5 7 true)]
      (joinPath [] "a".data) [] =
      ([mkImageFileInfo "b.jpg".data 5 7 "a/b.jpg".data], none) := by
    rw [scanEntries_cons_file_pos (show isImageFile ("b.jpg".data) = true
      by decide), scanEntries_nil]
    rfl
  have hout : getImageFiles none [("a".data, FsEntry.dir none
      [("b.jpg".data, FsEntry.file 5 7 true)]),
      ("photo.jpg".data, FsEntry.file 6 8 true)] =
      .ok [mkImageFileInfo "photo.jpg".data 6 8 "photo.jpg".data,
        mkImageFileInfo "b.jpg".data 5 7 "a/b.jpg".data] := by
    rw [getImageFiles, scanDirectory, scanEntries_cons_dir_none hsub,
      scanEntries_cons_file_pos (show isImageFile ("photo.jpg".data) = true
        by decide),
      scanEntries_nil]
    rfl
  ⟨hne, hout, C6_relative_path_construction none _ _ hne hout⟩

theorem C7_sort_idempotent_witness :
    (∀ a b : Str, (fun _ _ => (0 : Int)) a b ≤ 0 ↔
      0 ≤ (fun _ _ => (0 : Int)) b a) ∧
    (∀ a b c : Str, (fun _ _ => (0 : Int)) a b ≤ 0 →
      (fun _ _ => (0 : Int)) b c ≤ 0 → (fun _ _ => (0 : Int)) a c ≤ 0) ∧
    sortedFiles (sortedFiles
        [mkImageFileInfo "b.jpg".data 1 5 "b.jpg".data,
          mkImageFileInfo "a.jpg".data 2 9 "a.jpg".data]
        SortOption.NAME SortOrder.ASC (fun _ _ => (0 : Int)))
      SortOption.NAME SortOrder.ASC (fun _ _ => (0 : Int)) =
      sortedFiles [mkImageFileInfo "b.jpg".data 1 5 "b.jpg".data,
          mkImageFileInfo "a.jpg".data 2 9 "a.jpg".data]
        SortOption.NAME SortOrder.ASC (fun _ _ => (0 : Int)) :=
  have hanti : ∀ a b : Str, (fun _ _ => (0 : Int)) a b ≤ 0 ↔
      0 ≤ (fun _ _ => (0 : Int)) b a := fun a b => by simp
  have htrans : ∀ a b c : Str, (fun _ _ => (0 : Int)) a b ≤ 0 →
      (fun _ _ => (0 : Int)) b c ≤ 0 →
      (fun _ _ => (0 : Int)) a c ≤ 0 := fun a b c h _ => h
  ⟨hanti, htrans,
    C7_sort_idempotent _ SortOption.NAME SortOrder.ASC _ hanti htrans⟩

theorem C8_rescan_same_path_set_witness :
    TreePerm [("a.jpg".data, FsEntry.file 1 1 true),
        ("b.png".data, FsEntry.file 2 2 true)]
      [("b.png".data, FsEntry.file 2 2 true),
        ("a.jpg".data, FsEntry.file 1 1 true)] ∧
    (getImageFiles none [("a.jpg".data, FsEntry.file 1 1 true),
        ("b.png".data, FsEntry.file 2 2 true)] =
      .ok [mkImageFileInfo "b.png".data 2 2 "b.png".data,
        mkImageFileInfo "a.jpg".data 1 1 "a.jpg".data]) ∧
    (getImageFiles none [("b.png".data, FsEntry.file 2 2 true),
        ("a.jpg".data, FsEntry.file 1 1 true)] =
      .ok [mkImageFileInfo "b.png".data 2 2 "b.png".data,
        mkImageFileInfo "a.jpg".data 1 1 "a.jpg".data]) ∧
    ∀ p : Str,
      (∃ r ∈ [mkImageFileInfo "b.png".data 2 2 "b.png".data,
        mkImageFileInfo "a.jpg".data 1 1 "a.jpg".data], r.path = p) ↔
      (∃ r ∈ [mkImageFileInfo "b.png".data 2 2 "b.png".data,
        mkImageFileInfo "a.jpg".data 1 1 "a.jpg".data], r.path = p) :=
  have hp : TreePerm [("a.jpg".data, FsEntry.file 1 1 true),
      ("b.png".data, FsEntry.file 2 2 true)]
      [("b.png".data, FsEntry.file 2 2 true),
        ("a.jpg".data, FsEntry.file 1 1 true)] := .swap _ _
  have h₁ : getImageFiles none [("a.jpg".data, FsEntry.file 1 1 true),
      ("b.png".data, FsEntry.file 2 2 true)] =
      .ok [mkImageFileInfo "b.png".data 2 2 "b.png".data,
        mkImageFileInfo "a.jpg".data 1 1 "a.jpg".data] := by
    rw [getImageFiles, scanDirectory,
      scanEntries_cons_file_pos (show isImageFile ("a.jpg".data) = true
        by decide),
      scanEntries_cons_file_pos (show isImageFile ("b.png".data) = true
        by decide),
      scanEntries_nil]
    rfl
  have h₂ : getImageFiles none [("b.png".data, FsEntry.file 2 2 true),
      ("a.jpg".data, FsEntry.file 1 1 true)] =
      .ok [mkImageFileInfo "b.png".data 2 2 "b.png".data,
        mkImageFileInfo "a.jpg".data 1 1 "a.jpg".data] := by
    rw [getImageFiles, scanDirectory,
      scanEntries_cons_file_pos (show isImageFile ("b.png".data) = true
        by decide),
      scanEntries_cons_file_pos (show isImageFile ("a.jpg".data) = true
        by decide),
      scanEntries_nil]
    rfl
  have hne₁ : NamesNe [("a.jpg".data, FsEntry.file 1 1 true),
      ("b.png".data, FsEntry.file 2 2 true)] = true := by
    simp only [NamesNe, entriesAll]
    decide
  have hne₂ : NamesNe [("b.png".data, FsEntry.file 2 2 true),
      ("a.jpg".data, FsEntry.file 1 1 true)] = true := by
    simp only [NamesNe, entriesAll]
    decide
  have hok₁ : AllEnumOk [("a.jpg".data, FsEntry.file 1 1 true),
      ("b.png".data, FsEntry.file 2 2 true)] = true := by
    simp only [AllEnumOk, entriesAll]
    decide
  have hok₂ : AllEnumOk [("b.png".data, FsEntry.file 2 2 true),
      ("a.jpg".data, FsEntry.file 1 1 true)] = true := by
    simp only [AllEnumOk, entriesAll]
    decide
  ⟨hp, h₁, h₂,
    C8_rescan_same_path_set _ _ _ _ hp hne₁ hne₂ hok₁ hok₂ h₁ h₂⟩

theorem C9_dotless_excluded_dotfile_included_witness :
    (('.' ∉ "jpg".data) ∧ isImageFile "jpg".data = false) ∧
    ((getImageFiles none [("x.gif".data, FsEntry.file 1 1 true)] =
        .ok [mkImageFileInfo "x.gif".data 1 1 "x.gif".data]) ∧
      ∀ r ∈ [mkImageFileInfo "x.gif".data 1 1 "x.gif".data], '.' ∈ r.name) :=
  have hdot : '.' ∉ "jpg".data := by decide
  have hout : getImageFiles none [("x.gif".data, FsEntry.file 1 1 true)] =
      .ok [mkImageFileInfo "x.gif".data 1 1 "x.gif".data] := by
    rw [getImageFiles, scanDirectory,
      scanEntries_cons_file_pos (show isImageFile ("x.gif".data) = true
        by decide),
      scanEntries_nil]
    rfl
  ⟨⟨hdot, C9_dotless_excluded_dotfile_included.1 "jpg".data hdot⟩,
    ⟨hout, C9_dotless_excluded_dotfile_included.2.1 none _ _ hout⟩⟩

end ImageManager
